import Mathlib

/-!
Verification development for the feature-extraction core of
AlphaGOZero-python-tensorflow (file utils/features.py).

The module turns a Go position into multi-channel tensors: a bounded one-hot
quantizer (make_onehot), feature plane functions (stone colour, recent moves,
would-capture counts, the 16-plane AlphaGo-Zero history encoding, player
colour), a composer (extract_features, with an optional dihedral transform
given as a flip axis and a rotation count), and a batch extractor
(bulk_extract_features).

Embedding conventions: an N x N x k tensor is a function from two board
coordinates (Fin N) to the list of its k channel values; numpy uint8
arithmetic is modelled as natural-number arithmetic modulo 256; numpy
scatter assignment is modelled with List.set folds; code that can raise is
modelled in Except.
-/

namespace AlphaGoFeatures

/-- Modelled from the spec: the colour constants of utils/go.py (not among the
analysed sources).  The features.py docstring fixes them: "1 being black, and
-1 being white", and empty cells are 0 (the history encoder tests board
values with "board * colour > 0"). -/
def BLACK : ℤ := 1

/-- Modelled from the spec: white colour constant of utils/go.py. -/
def WHITE : ℤ := -1

/-- Modelled from the spec: empty-cell constant of utils/go.py. -/
def EMPTY : ℤ := 0

/-- Resolution/truncation limit for one-hot features (features.py, P = 8). -/
def P : ℕ := 8

/-- One group record as exposed by position.lib_tracker.groups: its colour,
its member stones and its liberty points (board coordinates). -/
structure Group where
  color : ℤ
  stones : List (ℕ × ℕ)
  liberties : List (ℕ × ℕ)

/-- The read-only Position interface consumed by features.py: the board grid,
whose turn it is, the move history (player, move-or-none; most recent last),
up to eight prior board snapshots (most recent last), and the group records
of the liberty tracker. -/
structure Position (N : ℕ) where
  board : Fin N → Fin N → ℤ
  to_play : ℤ
  recent : List (ℤ × Option (ℕ × ℕ))
  recent_board : List (Fin N → Fin N → ℤ)
  groups : List Group

/-- An N x N x k tensor, as a function from board coordinates to the list of
channel values at that cell. -/
abbrev Tensor (N : ℕ) := Fin N → Fin N → List ℕ

/-- make_onehot(feature, planes): the flattened scatter of features.py.
A zero array of feature.shape + (planes,) is allocated; each entry v is
capped at planes; for each flat cell index k with capped value nonzero, the
flat offset k * planes + capped - 1 is set to 1.  The input array is given
already ravelled (row-major), as numpy's ravel produces it. -/
def make_onehot (feature : List ℕ) (planes : ℕ) : List ℕ :=
  let capped := feature.map (fun v => min v planes)
  let nonzero_index_offsets :=
    ((List.range feature.length).filter (fun k => capped.getD k 0 != 0)).map
      (fun k => k * planes + capped.getD k 0 - 1)
  nonzero_index_offsets.foldl (fun arr off => arr.set off 1)
    (List.replicate (feature.length * planes) 0)

/-- stone_color_feature(position): channel 0 marks the stones of the player
to move (black stones if to_play is black, else white stones), channel 1 the
other colour's stones, channel 2 the empty cells. -/
def stone_color_feature {N : ℕ} (pos : Position N) : Tensor N :=
  fun r c =>
    if pos.to_play = BLACK then
      [if pos.board r c = BLACK then 1 else 0,
       if pos.board r c = WHITE then 1 else 0,
       if pos.board r c = EMPTY then 1 else 0]
    else
      [if pos.board r c = WHITE then 1 else 0,
       if pos.board r c = BLACK then 1 else 0,
       if pos.board r c = EMPTY then 1 else 0]

/-- The colour opposite to a given colour (spec wording: the opponent of the
player to move). -/
def oppColor (c : ℤ) : ℤ := if c = BLACK then WHITE else BLACK

/-- ones_feature(position): a constant plane of ones. -/
def ones_feature {N : ℕ} (_pos : Position N) : Tensor N := fun _ _ => [1]

/-- One iteration of the recent_move_feature loop: given the running tensor
and one element (i, (player, move)) of enumerate(reversed(recent[-P:])),
write a 1 at plane i of cell move when move is not None. -/
def recent_move_step {N : ℕ} (onehot_features : Tensor N)
    (ipm : ℕ × (ℤ × Option (ℕ × ℕ))) : Tensor N :=
  match ipm.2.2 with
  | some move => fun r c =>
      if (r.val, c.val) = move then (onehot_features r c).set ipm.1 1
      else onehot_features r c
  | none => onehot_features

/-- recent_move_feature(position): start from an N x N x P zero tensor and
run the loop over enumerate(reversed(position.recent[-P:])). -/
def recent_move_feature {N : ℕ} (pos : Position N) : Tensor N :=
  (((pos.recent.drop (pos.recent.length - P)).reverse).enum).foldl
    recent_move_step (fun _ _ => List.replicate P 0)

/-- The per-point accumulation of would_capture_feature: a uint8 zero array;
for every group of a colour other than to_play having exactly one liberty,
the group's stone count is added (uint8, hence modulo 256) at that liberty
point. -/
def would_capture_counts {N : ℕ} (pos : Position N) : ℕ × ℕ → ℕ :=
  pos.groups.foldl
    (fun features g =>
      if g.color = pos.to_play then features
      else if g.liberties.length = 1 then
        fun p => if p = g.liberties.headI then (features p + g.stones.length) % 256
                 else features p
      else features)
    (fun _ => 0)

/-- A Fin (N * N) index gives 0 < N. -/
def finMulPos {N : ℕ} (i : Fin (N * N)) : 0 < N := by
  rcases Nat.eq_zero_or_pos N with h | h
  · exact absurd i.isLt (by simp [h])
  · exact h

/-- Row-major ravel of an N x N array, as numpy's ravel orders it. -/
def ravel {N : ℕ} (m : Fin N → Fin N → ℕ) : List ℕ :=
  List.ofFn (fun i : Fin (N * N) =>
    m ⟨i.val / N, Nat.div_lt_of_lt_mul i.isLt⟩
      ⟨i.val % N, Nat.mod_lt _ (finMulPos i)⟩)

/-- would_capture_feature(position): the accumulated per-point capture counts
passed through make_onehot with planes = P; cell (r, c) reads back its P
channels from the flat scatter result. -/
def would_capture_feature {N : ℕ} (pos : Position N) : Tensor N :=
  let features := would_capture_counts pos
  let flat := make_onehot (ravel (fun r c : Fin N => features (r.val, c.val))) P
  fun r c => (flat.drop ((r.val * N + c.val) * P)).take P

/-- np.repeat(xs, repeats=2, axis=0): every element duplicated in place. -/
def repeat2 {α : Type} : List α → List α
  | [] => []
  | b :: t => b :: b :: repeat2 t

/-- One iteration of the player_opponent_recent_eight_move loop: state is the
running tensor together with the running player_colour; the element is
(i, board) from enumerate(reversed(np.repeat(recent_board, 2, axis=0))).
The board slice is scaled by the colour in place and plane i is set to 1
where the scaled board is positive; the colour is then negated. -/
def poprem_step {N : ℕ} (st : Tensor N × ℤ) (ib : ℕ × (Fin N → Fin N → ℤ)) :
    Tensor N × ℤ :=
  let board := fun r c => ib.2 r c * st.2
  ((fun r c => if board r c > 0 then (st.1 r c).set ib.1 1 else st.1 r c),
   st.2 * -1)

/-- player_opponent_recent_eight_move(position): fold the loop over the
enumerated reversal of the duplicated snapshot list, starting from an
N x N x 16 zero tensor and player_colour = to_play. -/
def player_opponent_recent_eight_move {N : ℕ} (pos : Position N) : Tensor N :=
  (((repeat2 pos.recent_board).reverse.enum).foldl poprem_step
    ((fun _ _ => List.replicate 16 0), pos.to_play)).1

/-- The same loop step, additionally recording the scaled buffer slices that
the in-place board *= player_colour writes produce.  The slices belong to
the buffer allocated by np.repeat, which copies; they are kept here to make
that mutation explicit. -/
def poprem_call_step {N : ℕ}
    (st : (Tensor N × ℤ) × List (Fin N → Fin N → ℤ))
    (ib : ℕ × (Fin N → Fin N → ℤ)) :
    (Tensor N × ℤ) × List (Fin N → Fin N → ℤ) :=
  (poprem_step st.1 ib, st.2 ++ [fun r c => ib.2 r c * st.1.2])

/-- A call to player_opponent_recent_eight_move modelled with its storage
effects: np.repeat allocates a fresh buffer (a copy of the snapshots), the
loop scales slices of that private buffer in place, and the position that
the caller still holds is returned alongside the features. -/
def player_opponent_recent_eight_move_call {N : ℕ} (pos : Position N) :
    Tensor N × Position N :=
  let buf := repeat2 pos.recent_board
  let res := (buf.reverse.enum).foldl poprem_call_step
    (((fun _ _ => List.replicate 16 0), pos.to_play), [])
  (res.1.1, { pos with recent_board := pos.recent_board })

/-- player_colour(position): a constant plane, 1 when black is to play and 0
otherwise (np.ones * (1 if to_play == BLACK else 0)). -/
def player_colour {N : ℕ} (pos : Position N) : Tensor N :=
  fun _ _ => [if pos.to_play = BLACK then 1 else 0]

/-- A feature plane function together with its declared width, as attached by
the planes(num_planes) decorator. -/
structure Feature (N : ℕ) where
  planes : ℕ
  apply : Position N → Tensor N

/-- The AlphaGo-Zero default feature list of features.py. -/
def DEFAULT_FEATURES {N : ℕ} : List (Feature N) :=
  [⟨16, player_opponent_recent_eight_move⟩, ⟨1, player_colour⟩]

/-- np.concatenate along the channel axis: fails on an empty list, otherwise
joins the channel lists cell by cell. -/
def np_concatenate {N : ℕ} (ts : List (Tensor N)) : Except String (Tensor N) :=
  match ts with
  | [] => .error "need at least one array to concatenate"
  | _ => .ok (fun r c => (ts.map (fun t => t r c)).flatten)

/-- np.flip(t, axis): axis 0 reverses rows, axis 1 reverses columns, axis 2
reverses the channel list (other axes would raise in numpy and are not
reachable in the statements below). -/
def np_flip {N : ℕ} (a : ℕ) (t : Tensor N) : Tensor N :=
  if a = 0 then fun r c => t r.rev c
  else if a = 1 then fun r c => t r c.rev
  else if a = 2 then fun r c => (t r c).reverse
  else t

/-- One counterclockwise 90-degree rotation in the plane of the first two
axes: np.rot90(m)[r, c] = m[c, N - 1 - r]. -/
def np_rot90_once {N : ℕ} (t : Tensor N) : Tensor N := fun r c => t c r.rev

/-- Iterated quarter-turns. -/
def rot90_iter {N : ℕ} : ℕ → Tensor N → Tensor N
  | 0, t => t
  | m + 1, t => np_rot90_once (rot90_iter m t)

/-- np.rot90(t, k): k is reduced modulo 4 and the quarter-turn iterated. -/
def np_rot90 {N : ℕ} (t : Tensor N) (k : ℕ) : Tensor N := rot90_iter (k % 4) t

/-- extract_features(position, features, dihedral): concatenate the feature
outputs along the channel axis; when a dihedral pair (flip axis, rotation
count) is given, flip then rotate the whole composite tensor. -/
def extract_features {N : ℕ} (pos : Position N) (features : List (Feature N))
    (dihedral : Option (ℕ × ℕ)) : Except String (Tensor N) :=
  match np_concatenate (features.map (fun f => f.apply pos)) with
  | .error e => .error e
  | .ok t =>
    match dihedral with
    | some d => .ok (np_rot90 (np_flip d.1 t) d.2)
    | none => .ok t

/-- The numpy assignment output[i] = t into a slot of num_planes channels:
exact shape match copies, a single-channel source broadcasts, anything else
raises. -/
def npAssignTensor {N : ℕ} (num_planes : ℕ) (t : Tensor N) :
    Except String (Tensor N) :=
  if ∀ r c, (t r c).length = num_planes then .ok t
  else if ∀ r c, (t r c).length = 1 then
    .ok (fun r c => List.replicate num_planes ((t r c).headI))
  else .error "could not broadcast input array"

/-- The loop of bulk_extract_features: each position's extracted features are
assigned into the next slice of the preallocated output. -/
def bulk_aux {N : ℕ} (features : List (Feature N)) (num_planes : ℕ) :
    List (Position N) → Except String (List (Tensor N))
  | [] => .ok []
  | pos :: rest =>
    match extract_features pos features none with
    | .error e => .error e
    | .ok t =>
      match npAssignTensor num_planes t with
      | .error e => .error e
      | .ok t' =>
        match bulk_aux features num_planes rest with
        | .error e => .error e
        | .ok out => .ok (t' :: out)

/-- bulk_extract_features(positions, features): allocate
(len positions, N, N, sum of declared widths) and fill slice i from
extract_features(positions[i], features) with no dihedral argument. -/
def bulk_extract_features {N : ℕ} (positions : List (Position N))
    (features : List (Feature N)) : Except String (List (Tensor N)) :=
  bulk_aux features ((features.map (fun f => f.planes)).sum) positions

/-- The coordinate source map of one quarter-turn: np_rot90_once reads cell
(r, c) from (c, rev r). -/
def rotCoord {N : ℕ} (p : Fin N × Fin N) : Fin N × Fin N := (p.2, p.1.rev)

/-- Iterated coordinate source map of rot90_iter. -/
def rotCoord_iter {N : ℕ} : ℕ → Fin N × Fin N → Fin N × Fin N
  | 0, p => p
  | m + 1, p => rotCoord_iter m (rotCoord p)

/-- Three quarter-turns at once (the coordinate inverse of one quarter-turn). -/
def tauCoord {N : ℕ} (p : Fin N × Fin N) : Fin N × Fin N :=
  rotCoord (rotCoord (rotCoord p))

/-- Iterated inverse quarter-turns. -/
def tauCoord_iter {N : ℕ} : ℕ → Fin N × Fin N → Fin N × Fin N
  | 0, p => p
  | m + 1, p => tauCoord_iter m (tauCoord p)

/-- The coordinate source map of a spatial flip: axis 0 reads from (rev r, c),
axis 1 from (r, rev c). -/
def flipCoord {N : ℕ} (a : ℕ) (p : Fin N × Fin N) : Fin N × Fin N :=
  if a = 0 then (p.1.rev, p.2) else if a = 1 then (p.1, p.2.rev) else p

/-- The length-p one-hot vector of the spec's quantizer contract (section
4.1): all zeros for value 0, otherwise a single 1 at index min v p - 1. -/
def onehotVec (v p : ℕ) : List ℕ :=
  (List.range p).map (fun i => if v ≠ 0 ∧ i = min v p - 1 then 1 else 0)

/-- The per-point map in the words of claim C4: the (unreduced) sum of the
stone counts of every group of a colour other than to_play whose liberty
set is exactly the given point. -/
def wcSpecTrueSum {N : ℕ} (pos : Position N) (p : ℕ × ℕ) : ℕ :=
  ((pos.groups.filter
      (fun g => decide (g.color ≠ pos.to_play ∧ g.liberties = [p]))).map
    (fun g => g.stones.length)).sum

/-- The same per-point map reduced modulo 256, matching the uint8 accumulator
of would_capture_feature. -/
def wcSpecMap {N : ℕ} (pos : Position N) (p : ℕ × ℕ) : ℕ :=
  wcSpecTrueSum pos p % 256

/-- A default position (empty board, black to play, no history). -/
def defaultPosition (N : ℕ) : Position N :=
  ⟨fun _ _ => EMPTY, BLACK, [], [], []⟩

/-- A white group of 128 stones whose only liberty is (0, 0). -/
def cexGroup : Group := ⟨WHITE, List.replicate 128 (0, 0), [(0, 0)]⟩

/-- A position on a 1 x 1 board whose liberty tracker holds two opposing
groups of 128 stones each, both with (0, 0) as their single liberty. -/
def cexPos : Position 1 :=
  ⟨fun _ _ => EMPTY, BLACK, [], [], [cexGroup, cexGroup]⟩

/-- A feature whose declared width (2) disagrees with the channel count of
its output (1). -/
def cexBadFeature : Feature 1 := ⟨2, fun _ => fun _ _ => [1]⟩

/-- A concrete position with three recorded moves (one of them a pass). -/
def wpos3 : Position 2 :=
  ⟨fun _ _ => EMPTY, BLACK,
   [(BLACK, some (0, 0)), (WHITE, none), (BLACK, some (1, 1))], [], []⟩

/-- A concrete position with two stored board snapshots. -/
def wpos5 : Position 1 :=
  ⟨fun _ _ => EMPTY, BLACK, [], [fun _ _ => 1, fun _ _ => -1], []⟩

/-- A width-honest single-channel feature for batch extraction. -/
def wfeat6 : Feature 1 := ⟨1, fun _ => fun _ _ => [7]⟩

/-- A concrete position with one black stone, black to play. -/
def wpos8 : Position 1 := ⟨fun _ _ => BLACK, BLACK, [], [], []⟩

/-- The same board with white to play. -/
def wpos8' : Position 1 := ⟨fun _ _ => BLACK, WHITE, [], [], []⟩

theorem foldl_set_length (offs : List ℕ) (init : List ℕ) :
    (offs.foldl (fun arr off => arr.set off 1) init).length = init.length := by
  induction offs generalizing init with
  | nil => rfl
  | cons o os ih => simpa [List.length_set] using ih (init.set o 1)

theorem foldl_set_getD (offs : List ℕ) (init : List ℕ) (j : ℕ)
    (hj : j < init.length) :
    (offs.foldl (fun arr off => arr.set off 1) init).getD j 0 =
      if j ∈ offs then 1 else init.getD j 0 := by
  induction offs generalizing init with
  | nil => simp
  | cons o os ih =>
    have hj' : j < (init.set o 1).length := by simpa [List.length_set] using hj
    rw [List.foldl_cons, ih (init.set o 1) hj']
    by_cases h : j = o
    · subst h
      have h1 : (init.set j 1).getD j 0 = 1 := by
        rw [List.getD_eq_getElem _ _ hj', List.getElem_set]
        simp
      rw [if_pos (List.mem_cons_self j os)]
      by_cases hm : j ∈ os
      · rw [if_pos hm]
      · rw [if_neg hm, h1]
    · have h2 : (init.set o 1).getD j 0 = init.getD j 0 := by
        rw [List.getD_eq_getElem _ _ hj', List.getElem_set,
          if_neg (fun hoj : o = j => h hoj.symm), List.getD_eq_getElem _ _ hj]
      by_cases hm : j ∈ os
      · rw [if_pos hm, if_pos (List.mem_cons_of_mem _ hm)]
      · rw [if_neg hm, if_neg (by simp [List.mem_cons, h, hm]), h2]

theorem mem_nonzero_offsets (f : List ℕ) (p j : ℕ) :
    (j ∈ ((List.range f.length).filter
        (fun k => (f.map (fun v => min v p)).getD k 0 != 0)).map
        (fun k => k * p + (f.map (fun v => min v p)).getD k 0 - 1)) ↔
      ∃ k, k < f.length ∧ min (f.getD k 0) p ≠ 0 ∧
        j = k * p + min (f.getD k 0) p - 1 := by
  have hmap : ∀ k, k < f.length →
      (f.map (fun v => min v p)).getD k 0 = min (f.getD k 0) p := by
    intro k hk
    rw [List.getD_eq_getElem _ _ (by simpa using hk), List.getElem_map,
      List.getD_eq_getElem _ _ hk]
  simp only [List.mem_map, List.mem_filter, List.mem_range, bne_iff_ne]
  constructor
  · rintro ⟨k, ⟨hk, hne⟩, rfl⟩
    exact ⟨k, hk, by rwa [hmap k hk] at hne, by rw [hmap k hk]⟩
  · rintro ⟨k, hk, hne, rfl⟩
    exact ⟨k, ⟨hk, by rwa [hmap k hk]⟩, by rw [hmap k hk]⟩

theorem cell_index_inj {p k c k' c' : ℕ} (hc : c < p) (hc' : c' < p)
    (h : k * p + c = k' * p + c') : k = k' ∧ c = c' := by
  have hp : 0 < p := by omega
  have e1 : (k * p + c) / p = k := by
    rw [Nat.mul_comm, Nat.mul_add_div hp, Nat.div_eq_of_lt hc, Nat.add_zero]
  have e2 : (k' * p + c') / p = k' := by
    rw [Nat.mul_comm, Nat.mul_add_div hp, Nat.div_eq_of_lt hc', Nat.add_zero]
  have hkk : k = k' := by rw [← e1, ← e2, h]
  refine ⟨hkk, ?_⟩
  subst hkk
  exact Nat.add_left_cancel h

theorem make_onehot_getD (f : List ℕ) (p : ℕ) (k c : ℕ)
    (hk : k < f.length) (hc : c < p) :
    (make_onehot f p).getD (k * p + c) 0 =
      if min (f.getD k 0) p ≠ 0 ∧ c = min (f.getD k 0) p - 1 then 1 else 0 := by
  have hbound : k * p + c < f.length * p := by
    calc k * p + c < k * p + p := by omega
    _ = (k + 1) * p := by ring
    _ ≤ f.length * p := Nat.mul_le_mul_right _ (by omega)
  rw [show make_onehot f p =
      (((List.range f.length).filter
          (fun k => (f.map (fun v => min v p)).getD k 0 != 0)).map
        (fun k => k * p + (f.map (fun v => min v p)).getD k 0 - 1)).foldl
        (fun arr off => arr.set off 1)
        (List.replicate (f.length * p) 0) from rfl]
  rw [foldl_set_getD _ _ _ (by simpa using hbound)]
  have hrep : (List.replicate (f.length * p) (0 : ℕ)).getD (k * p + c) 0 = 0 := by
    rw [List.getD_eq_getElem _ _ (by simpa using hbound), List.getElem_replicate]
  rw [hrep]
  by_cases hcond : min (f.getD k 0) p ≠ 0 ∧ c = min (f.getD k 0) p - 1
  · rw [if_pos ((mem_nonzero_offsets f p _).2 ⟨k, hk, hcond.1, by
      rw [hcond.2]
      exact (Nat.add_sub_assoc (Nat.one_le_iff_ne_zero.2 hcond.1) _).symm⟩),
      if_pos hcond]
  · rw [if_neg, if_neg hcond]
    intro hmem
    obtain ⟨k', hk', hne', heq⟩ := (mem_nonzero_offsets f p _).1 hmem
    have hmin' : min (f.getD k' 0) p ≤ p := Nat.min_le_right _ _
    have hone' : 1 ≤ min (f.getD k' 0) p := Nat.one_le_iff_ne_zero.2 hne'
    have heq' : k * p + c = k' * p + (min (f.getD k' 0) p - 1) := by
      rw [heq, Nat.add_sub_assoc hone']
    obtain ⟨hkk, hcc⟩ := cell_index_inj hc (by omega) heq'
    subst hkk
    exact hcond ⟨hne', hcc⟩

/-- C1: for every non-negative integer array and every positive width, each
cell of make_onehot(feature, planes) is a length-planes vector with at most
one 1; it is all-zero iff the cell's value v is 0; for 1 <= v < planes the
single 1 sits at index v - 1; for v >= planes it sits at index planes - 1;
and the output has feature.length * planes entries (shape + (planes,)). -/
theorem make_onehot_correct (f : List ℕ) (p : ℕ) (hp : 0 < p) (k : ℕ)
    (hk : k < f.length) :
    (make_onehot f p).length = f.length * p ∧
    (f.getD k 0 = 0 → ∀ c, c < p → (make_onehot f p).getD (k * p + c) 0 = 0) ∧
    (1 ≤ f.getD k 0 → f.getD k 0 < p →
      (make_onehot f p).getD (k * p + (f.getD k 0 - 1)) 0 = 1 ∧
      ∀ c, c < p → c ≠ f.getD k 0 - 1 →
        (make_onehot f p).getD (k * p + c) 0 = 0) ∧
    (p ≤ f.getD k 0 →
      (make_onehot f p).getD (k * p + (p - 1)) 0 = 1 ∧
      ∀ c, c < p → c ≠ p - 1 → (make_onehot f p).getD (k * p + c) 0 = 0) ∧
    ((∀ c, c < p → (make_onehot f p).getD (k * p + c) 0 = 0) ↔
      f.getD k 0 = 0) ∧
    (∀ c c', c < p → c' < p →
      (make_onehot f p).getD (k * p + c) 0 = 1 →
      (make_onehot f p).getD (k * p + c') 0 = 1 → c = c') := by
  have hlen : (make_onehot f p).length = f.length * p := by
    rw [show make_onehot f p =
        (((List.range f.length).filter
            (fun k => (f.map (fun v => min v p)).getD k 0 != 0)).map
          (fun k => k * p + (f.map (fun v => min v p)).getD k 0 - 1)).foldl
          (fun arr off => arr.set off 1)
          (List.replicate (f.length * p) 0) from rfl]
    rw [foldl_set_length, List.length_replicate]
  refine ⟨hlen, ?_, ?_, ?_, ?_, ?_⟩
  · intro hv c hc
    rw [make_onehot_getD f p k c hk hc, if_neg]
    rintro ⟨hne, -⟩
    exact hne (by rw [hv]; exact Nat.zero_min p)
  · intro h1 h2
    have hmin : min (f.getD k 0) p = f.getD k 0 := Nat.min_eq_left (by omega)
    constructor
    · rw [make_onehot_getD f p k _ hk (by omega), if_pos ⟨by omega, by omega⟩]
    · intro c hc hne
      rw [make_onehot_getD f p k c hk hc, if_neg]
      rintro ⟨-, hcc⟩
      exact hne (by omega)
  · intro hge
    have hmin : min (f.getD k 0) p = p := Nat.min_eq_right hge
    constructor
    · rw [make_onehot_getD f p k _ hk (by omega), if_pos ⟨by omega, by omega⟩]
    · intro c hc hne
      rw [make_onehot_getD f p k c hk hc, if_neg]
      rintro ⟨-, hcc⟩
      exact hne (by omega)
  · constructor
    · intro hall
      by_contra hv
      have hmin1 : 1 ≤ min (f.getD k 0) p := by
        rcases Nat.lt_or_ge (f.getD k 0) p with h | h
        · rw [Nat.min_eq_left (by omega)]; omega
        · rw [Nat.min_eq_right h]; omega
      have hminp : min (f.getD k 0) p ≤ p := Nat.min_le_right _ _
      have := hall (min (f.getD k 0) p - 1) (by omega)
      rw [make_onehot_getD f p k _ hk (by omega),
        if_pos ⟨by omega, rfl⟩] at this
      exact absurd this (by omega)
    · intro hv c hc
      rw [make_onehot_getD f p k c hk hc, if_neg]
      rintro ⟨hne, -⟩
      exact hne (by rw [hv]; exact Nat.zero_min p)
  · intro c c' hc hc' h1 h1'
    rw [make_onehot_getD f p k c hk hc] at h1
    rw [make_onehot_getD f p k c' hk hc'] at h1'
    by_cases hcond : min (f.getD k 0) p ≠ 0 ∧ c = min (f.getD k 0) p - 1
    · by_cases hcond' : min (f.getD k 0) p ≠ 0 ∧ c' = min (f.getD k 0) p - 1
      · omega
      · rw [if_neg hcond'] at h1'; omega
    · rw [if_neg hcond] at h1; omega

theorem make_onehot_correct_witness :
    (make_onehot [0, 1, 5, 2] 3).getD (2 * 3 + (3 - 1)) 0 = 1 :=
  ((make_onehot_correct [0, 1, 5, 2] 3 (by decide) 2 (by decide)).2.2.2.1
    (by decide)).1

theorem make_onehot_length (f : List ℕ) (p : ℕ) :
    (make_onehot f p).length = f.length * p := by
  rw [show make_onehot f p =
      (((List.range f.length).filter
          (fun k => (f.map (fun v => min v p)).getD k 0 != 0)).map
        (fun k => k * p + (f.map (fun v => min v p)).getD k 0 - 1)).foldl
        (fun arr off => arr.set off 1)
        (List.replicate (f.length * p) 0) from rfl]
  rw [foldl_set_length, List.length_replicate]

theorem ravel_getD {N : ℕ} (m : Fin N → Fin N → ℕ) (r c : Fin N) :
    (ravel m).getD (r.val * N + c.val) 0 = m r c := by
  have hNc := c.isLt
  have hNr := r.isLt
  have hcell : r.val * N + c.val < N * N := by
    calc r.val * N + c.val < r.val * N + N := by omega
    _ = (r.val + 1) * N := by ring
    _ ≤ N * N := Nat.mul_le_mul_right _ (by omega)
  have hN : 0 < N := by omega
  unfold ravel
  rw [List.getD_eq_getElem _ _ (by simpa using hcell), List.getElem_ofFn]
  congr 1
  · exact Fin.ext (by
      simp only []
      rw [Nat.mul_comm, Nat.mul_add_div hN, Nat.div_eq_of_lt hNc, Nat.add_zero])
  · exact Fin.ext (by
      simp only []
      rw [Nat.mul_comm, Nat.mul_add_mod, Nat.mod_eq_of_lt hNc])

theorem wc_foldl_eq (to_play : ℤ) (gs : List Group) :
    ∀ (m : ℕ × ℕ → ℕ), (∀ q, m q < 256) → ∀ p,
      (gs.foldl
        (fun features g =>
          if g.color = to_play then features
          else if g.liberties.length = 1 then
            fun q => if q = g.liberties.headI then
                (features q + g.stones.length) % 256
              else features q
          else features)
        m) p =
      (m p + ((gs.filter
          (fun g => decide (g.color ≠ to_play ∧ g.liberties = [p]))).map
        (fun g => g.stones.length)).sum) % 256 := by
  induction gs with
  | nil =>
    intro m hm p
    simp [Nat.mod_eq_of_lt (hm p)]
  | cons g gs ih =>
    intro m hm p
    rw [List.foldl_cons]
    by_cases h1 : g.color = to_play
    · have hfil : decide (g.color ≠ to_play ∧ g.liberties = [p]) = false := by
        simp [h1]
      rw [if_pos h1, ih m hm p, List.filter_cons, hfil]
      simp
    · rw [if_neg h1]
      by_cases h2 : g.liberties.length = 1
      · obtain ⟨q, hq⟩ := List.length_eq_one.1 h2
        have hhead : g.liberties.headI = q := by rw [hq]; rfl
        rw [if_pos h2]
        have hm' : ∀ s, (fun s => if s = g.liberties.headI then
            (m s + g.stones.length) % 256 else m s) s < 256 := by
          intro s
          by_cases hs : s = g.liberties.headI
          · simp only [if_pos hs]
            exact Nat.mod_lt _ (by omega)
          · simp only [if_neg hs]
            exact hm s
        rw [ih _ hm' p]
        by_cases hpq : p = q
        · subst hpq
          have hfil : decide (g.color ≠ to_play ∧ g.liberties = [p]) = true := by
            simp [h1, hq]
          rw [List.filter_cons, hfil, if_pos rfl]
          simp only [List.map_cons, List.sum_cons,
            if_pos (hhead.symm ▸ rfl : p = g.liberties.headI)]
          rw [Nat.mod_add_mod, Nat.add_assoc]
        · have hfil : decide (g.color ≠ to_play ∧ g.liberties = [p]) = false := by
            simp only [decide_eq_false_iff_not]
            rintro ⟨-, hl⟩
            rw [hq] at hl
            exact hpq (by injection hl with h _; exact h.symm)
          rw [List.filter_cons, hfil, if_neg Bool.false_ne_true]
          simp only [if_neg (fun h : p = g.liberties.headI => hpq (h.trans hhead))]
      · have hfil : decide (g.color ≠ to_play ∧ g.liberties = [p]) = false := by
          simp only [decide_eq_false_iff_not]
          rintro ⟨-, hl⟩
          exact h2 (by rw [hl]; rfl)
        rw [if_neg h2, ih m hm p, List.filter_cons, hfil, if_neg Bool.false_ne_true]

theorem would_capture_counts_eq {N : ℕ} (pos : Position N) (p : ℕ × ℕ) :
    would_capture_counts pos p = wcSpecTrueSum pos p % 256 := by
  unfold would_capture_counts wcSpecTrueSum
  rw [wc_foldl_eq pos.to_play pos.groups (fun _ => 0) (fun _ => by simp) p,
    Nat.zero_add]

/-- C4 (amended): would_capture_feature equals the planes-8 one-hot
quantization of the per-point map that assigns to each point the sum, taken
modulo 256 (the accumulator is a uint8 array), of the stone counts of every
group of the opposing colour whose liberty set is exactly that point; the
current player's groups contribute nothing. -/
theorem would_capture_feature_mod_spec {N : ℕ} (pos : Position N)
    (r c : Fin N) :
    would_capture_feature pos r c = onehotVec (wcSpecMap pos (r.val, c.val)) 8 := by
  have hNr := r.isLt
  have hNc := c.isLt
  have hcell : r.val * N + c.val < N * N := by
    calc r.val * N + c.val < r.val * N + N := by omega
    _ = (r.val + 1) * N := by ring
    _ ≤ N * N := Nat.mul_le_mul_right _ (by omega)
  have hrlen : (ravel (fun a b : Fin N =>
      would_capture_counts pos (a.val, b.val))).length = N * N := by
    unfold ravel
    rw [List.length_ofFn]
  have hflat : (make_onehot (ravel (fun a b : Fin N =>
      would_capture_counts pos (a.val, b.val))) P).length = N * N * P := by
    rw [make_onehot_length, hrlen]
  have hb : ∀ i, i < P → (r.val * N + c.val) * P + i < N * N * P := by
    intro i hi
    calc (r.val * N + c.val) * P + i < (r.val * N + c.val) * P + P := by omega
    _ = (r.val * N + c.val + 1) * P := by ring
    _ ≤ N * N * P := Nat.mul_le_mul_right _ (by omega)
  show ((make_onehot (ravel (fun a b : Fin N =>
      would_capture_counts pos (a.val, b.val))) P).drop
      ((r.val * N + c.val) * P)).take P =
    onehotVec (wcSpecMap pos (r.val, c.val)) 8
  apply List.ext_getElem
  · rw [List.length_take, List.length_drop, hflat]
    unfold onehotVec
    rw [List.length_map, List.length_range, ← Nat.sub_mul]
    have h2 : P ≤ (N * N - (r.val * N + c.val)) * P := by
      calc P = 1 * P := (Nat.one_mul P).symm
      _ ≤ (N * N - (r.val * N + c.val)) * P :=
        Nat.mul_le_mul_right _ (by omega)
    rw [Nat.min_eq_left h2]
    rfl
  · intro i h1 h2
    have hiP : i < P := by
      rw [List.length_take] at h1
      exact lt_of_lt_of_le h1 (min_le_left _ _)
    rw [List.getElem_take, List.getElem_drop]
    have hgd := make_onehot_getD
      (ravel (fun a b : Fin N => would_capture_counts pos (a.val, b.val))) P
      (r.val * N + c.val) i (by rw [hrlen]; exact hcell) hiP
    rw [List.getD_eq_getElem _ _ (by rw [hflat]; exact hb i hiP)] at hgd
    rw [hgd]
    unfold onehotVec
    rw [List.getElem_map, List.getElem_range]
    have hv : (ravel (fun a b : Fin N =>
        would_capture_counts pos (a.val, b.val))).getD (r.val * N + c.val) 0 =
        wcSpecMap pos (r.val, c.val) := by
      rw [ravel_getD, would_capture_counts_eq]
      rfl
    rw [hv]
    show (if min (wcSpecMap pos (r.val, c.val)) 8 ≠ 0 ∧
        i = min (wcSpecMap pos (r.val, c.val)) 8 - 1 then 1 else 0) =
      (if wcSpecMap pos (r.val, c.val) ≠ 0 ∧
        i = min (wcSpecMap pos (r.val, c.val)) 8 - 1 then 1 else 0)
    by_cases hz : wcSpecMap pos (r.val, c.val) = 0
    · rw [if_neg, if_neg]
      · rintro ⟨h0, -⟩
        exact h0 hz
      · rintro ⟨h0, -⟩
        exact h0 (by rw [hz]; exact Nat.zero_min 8)
    · have hmz : min (wcSpecMap pos (r.val, c.val)) 8 ≠ 0 := by
        rcases Nat.lt_or_ge (wcSpecMap pos (r.val, c.val)) 8 with h | h
        · rw [Nat.min_eq_left (by omega)]; exact hz
        · rw [Nat.min_eq_right h]; omega
      by_cases hi : i = min (wcSpecMap pos (r.val, c.val)) 8 - 1
      · rw [if_pos ⟨hmz, hi⟩, if_pos ⟨hz, hi⟩]
      · rw [if_neg (fun hk => hi hk.2), if_neg (fun hk => hi hk.2)]

set_option maxRecDepth 10000 in
/-- C4 counterexample: on cexPos two opposing groups of 128 stones each share
the single liberty (0, 0); the claim's unreduced sum is 256, whose planes-8
one-hot would be saturated at index 7, but the uint8 accumulator wraps to 0
and would_capture_feature is all-zero there. -/
theorem would_capture_feature_sum_cex :
    would_capture_feature cexPos 0 0 ≠ onehotVec (wcSpecTrueSum cexPos (0, 0)) 8 ∧
    would_capture_feature cexPos 0 0 = List.replicate 8 0 ∧
    wcSpecTrueSum cexPos (0, 0) = 256 := by
  refine ⟨by decide, by decide, by decide⟩

set_option maxRecDepth 10000 in
/-- C10: the would_capture accumulation is uint8 arithmetic: for every
position the accumulated per-point value is the sum of the matching group
sizes reduced modulo 256, and on cexPos, whose two opposing groups of 128
stones share the last liberty (0, 0), the total 256 wraps to 0, so the
point's one-hot vector is all-zero instead of saturated. -/
theorem would_capture_uint8_accumulation :
    (∀ (N : ℕ) (pos : Position N) (p : ℕ × ℕ),
      would_capture_counts pos p = wcSpecTrueSum pos p % 256) ∧
    would_capture_counts cexPos (0, 0) = 0 ∧
    wcSpecTrueSum cexPos (0, 0) = 256 ∧
    would_capture_feature cexPos 0 0 = List.replicate 8 0 :=
  ⟨fun _ pos p => would_capture_counts_eq pos p, by decide, by decide, by decide⟩

theorem getD_set_self (l : List ℕ) (n : ℕ) (h : n < l.length) :
    (l.set n 1).getD n 0 = 1 := by
  rw [List.getD_eq_getElem?_getD, List.getElem?_set, if_pos rfl, if_pos h]
  rfl

theorem getD_set_ne (l : List ℕ) (n j : ℕ) (h : n ≠ j) :
    (l.set n 1).getD j 0 = l.getD j 0 := by
  rw [List.getD_eq_getElem?_getD, List.getElem?_set, if_neg h,
    ← List.getD_eq_getElem?_getD]

theorem getD_reverse_drop {α : Type} (l : List α) (K i : ℕ) (d : α)
    (hi : i < l.length - K) :
    ((l.drop K).reverse).getD i d = l.getD (l.length - 1 - i) d := by
  rw [List.getD_eq_getElem?_getD, List.getD_eq_getElem?_getD]
  rw [List.getElem?_reverse (by rw [List.length_drop]; exact hi)]
  rw [List.getElem?_drop]
  have hidx : K + ((l.drop K).length - 1 - i) = l.length - 1 - i := by
    rw [List.length_drop]
    omega
  rw [hidx]

theorem recent_move_loop_length {N : ℕ} (ms : List (ℤ × Option (ℕ × ℕ))) :
    ∀ (n : ℕ) (feats : Tensor N) (r c : Fin N),
      (((ms.enumFrom n).foldl recent_move_step feats) r c).length =
        (feats r c).length := by
  induction ms with
  | nil => intro n feats r c; rfl
  | cons pm ms ih =>
    intro n feats r c
    rw [List.enumFrom_cons, List.foldl_cons, ih (n + 1) _ r c]
    rcases pm with ⟨pl, mv⟩
    cases mv with
    | none => rfl
    | some m =>
      show (if (r.val, c.val) = m then (feats r c).set n 1
        else feats r c).length = (feats r c).length
      by_cases h : (r.val, c.val) = m
      · rw [if_pos h, List.length_set]
      · rw [if_neg h]

theorem recent_move_loop_getD {N : ℕ} (ms : List (ℤ × Option (ℕ × ℕ))) :
    ∀ (n : ℕ) (feats : Tensor N), (∀ r c, (feats r c).length = P) →
      n + ms.length ≤ P → ∀ (r c : Fin N) (j : ℕ),
      (((ms.enumFrom n).foldl recent_move_step feats) r c).getD j 0 =
        if ∃ t, t < ms.length ∧ j = n + t ∧
            (ms.getD t (0, none)).2 = some (r.val, c.val) then 1
        else (feats r c).getD j 0 := by
  induction ms with
  | nil =>
    intro n feats hlen hb r c j
    rw [if_neg]
    · rfl
    · rintro ⟨t, ht, -, -⟩
      exact absurd ht (by simp)
  | cons pm ms ih =>
    intro n feats hlen hb r c j
    have hnP : n < P := by
      have := hb
      simp only [List.length_cons] at this
      omega
    have hlen' : ∀ r c : Fin N,
        ((recent_move_step feats (n, pm)) r c).length = P := by
      intro r c
      rcases pm with ⟨pl, mv⟩
      cases mv with
      | none => exact hlen r c
      | some m =>
        show (if (r.val, c.val) = m then (feats r c).set n 1
          else feats r c).length = P
        by_cases h : (r.val, c.val) = m
        · rw [if_pos h, List.length_set]
          exact hlen r c
        · rw [if_neg h]
          exact hlen r c
    rw [List.enumFrom_cons, List.foldl_cons,
      ih (n + 1) _ hlen' (by simp only [List.length_cons] at hb; omega) r c j]
    by_cases htail : ∃ t, t < ms.length ∧ j = n + 1 + t ∧
        (ms.getD t (0, none)).2 = some (r.val, c.val)
    · rw [if_pos htail]
      obtain ⟨t, ht, hj, hQ⟩ := htail
      rw [if_pos ⟨t + 1, by simp only [List.length_cons]; omega, by omega,
        by rw [List.getD_cons_succ]; exact hQ⟩]
    · rw [if_neg htail]
      rcases pm with ⟨pl, mv⟩
      cases mv with
      | none =>
        rw [if_neg]
        · rfl
        · rintro ⟨t, ht, hj, hQ⟩
          cases t with
          | zero => exact absurd hQ (by simp)
          | succ t =>
            rw [List.getD_cons_succ] at hQ
            exact htail ⟨t, by simp only [List.length_cons] at ht; omega,
              by omega, hQ⟩
      | some m =>
        have hstep : recent_move_step feats (n, (pl, some m)) r c =
            if (r.val, c.val) = m then (feats r c).set n 1
            else feats r c := rfl
        rw [hstep]
        by_cases hm : (r.val, c.val) = m
        · rw [if_pos hm]
          by_cases hj : j = n
          · subst hj
            rw [getD_set_self _ _ (by rw [hlen r c]; exact hnP)]
            rw [if_pos ⟨0, by simp, by omega,
              by rw [List.getD_cons_zero]; exact congrArg some hm.symm⟩]
          · rw [getD_set_ne _ _ _ (fun h => hj h.symm)]
            rw [if_neg]
            rintro ⟨t, ht, hjt, hQ⟩
            cases t with
            | zero => exact hj (by omega)
            | succ t =>
              rw [List.getD_cons_succ] at hQ
              exact htail ⟨t, by simp only [List.length_cons] at ht; omega,
                by omega, hQ⟩
        · rw [if_neg hm, if_neg]
          rintro ⟨t, ht, hjt, hQ⟩
          cases t with
          | zero =>
            rw [List.getD_cons_zero] at hQ
            exact hm (by injection hQ with h; exact h.symm)
          | succ t =>
            rw [List.getD_cons_succ] at hQ
            exact htail ⟨t, by simp only [List.length_cons] at ht; omega,
              by omega, hQ⟩

/-- C3: recent_move_feature is an N x N x 8 tensor; for i < 8, channel i has
a 1 exactly at the location of the move played i turns before the most
recent move (i = 0 the most recent) when that move exists and was not a
pass, and is all-zero otherwise; moves before the last eight half-moves are
never read. -/
theorem recent_move_feature_correct {N : ℕ} (pos : Position N)
    (hv : ∀ pm ∈ pos.recent, ∀ mv, pm.2 = some mv → mv.1 < N ∧ mv.2 < N) :
    ∀ (r c : Fin N), ((recent_move_feature pos) r c).length = 8 ∧
      ∀ i, i < 8 →
        ((recent_move_feature pos) r c).getD i 0 =
          if i < pos.recent.length ∧
              (pos.recent.getD (pos.recent.length - 1 - i) (0, none)).2 =
                some (r.val, c.val) then 1
          else 0 := by
  intro r c
  have hP8 : P = 8 := rfl
  have hslen : ((pos.recent.drop (pos.recent.length - P)).reverse).length =
      pos.recent.length - (pos.recent.length - P) := by
    rw [List.length_reverse, List.length_drop]
  constructor
  · unfold recent_move_feature
    rw [List.enum_eq_enumFrom, recent_move_loop_length]
    rfl
  · intro i hi
    unfold recent_move_feature
    rw [List.enum_eq_enumFrom,
      recent_move_loop_getD _ 0 _ (fun _ _ => List.length_replicate _ _)
        (by rw [Nat.zero_add, hslen]; omega) r c i]
    have hrep : ((fun _ _ : Fin N => List.replicate P 0) r c).getD i 0 = 0 := by
      rw [List.getD_eq_getElem _ _ (by simpa using hi), List.getElem_replicate]
    rw [hrep]
    by_cases hc2 : i < pos.recent.length ∧
        (pos.recent.getD (pos.recent.length - 1 - i) (0, none)).2 =
          some (r.val, c.val)
    · rw [if_pos hc2, if_pos]
      refine ⟨i, by rw [hslen]; omega, by omega, ?_⟩
      rw [getD_reverse_drop _ _ _ _ (by omega)]
      exact hc2.2
    · rw [if_neg hc2, if_neg]
      rintro ⟨t, ht, hit, hQ⟩
      rw [hslen] at ht
      have hti : t = i := by omega
      subst hti
      rw [getD_reverse_drop _ _ _ _ (by omega)] at hQ
      exact hc2 ⟨by omega, hQ⟩

theorem recent_move_feature_correct_witness :
    (∀ pm ∈ wpos3.recent, ∀ mv, pm.2 = some mv → mv.1 < 2 ∧ mv.2 < 2) ∧
    ∀ (r c : Fin 2), ((recent_move_feature wpos3) r c).length = 8 ∧
      ∀ i, i < 8 →
        ((recent_move_feature wpos3) r c).getD i 0 =
          if i < wpos3.recent.length ∧
              (wpos3.recent.getD (wpos3.recent.length - 1 - i) (0, none)).2 =
                some (r.val, c.val) then 1
          else 0 :=
  ⟨by decide, recent_move_feature_correct wpos3 (by decide)⟩

theorem repeat2_length {α : Type} (l : List α) :
    (repeat2 l).length = 2 * l.length := by
  induction l with
  | nil => rfl
  | cons x xs ih =>
    show (x :: x :: repeat2 xs).length = 2 * (xs.length + 1)
    simp only [List.length_cons, ih]
    omega

theorem repeat2_append {α : Type} (xs ys : List α) :
    repeat2 (xs ++ ys) = repeat2 xs ++ repeat2 ys := by
  induction xs with
  | nil => rfl
  | cons x xs ih =>
    show x :: x :: repeat2 (xs ++ ys) = x :: x :: (repeat2 xs ++ repeat2 ys)
    rw [ih]

theorem repeat2_reverse {α : Type} (l : List α) :
    (repeat2 l).reverse = repeat2 l.reverse := by
  induction l with
  | nil => rfl
  | cons x xs ih =>
    rw [List.reverse_cons, repeat2_append,
      show repeat2 (x :: xs) = x :: x :: repeat2 xs from rfl,
      show repeat2 [x] = [x, x] from rfl]
    simp [ih]

theorem repeat2_getD {α : Type} (l : List α) (d : α) :
    ∀ t, (repeat2 l).getD t d = l.getD (t / 2) d := by
  induction l with
  | nil => intro t; rfl
  | cons x xs ih =>
    intro t
    rcases t with _ | t
    · rfl
    rcases t with _ | t
    · rfl
    · show (x :: x :: repeat2 xs).getD (t + 2) d = (x :: xs).getD ((t + 2) / 2) d
      rw [List.getD_cons_succ, List.getD_cons_succ, ih t,
        show (t + 2) / 2 = t / 2 + 1 from by omega, List.getD_cons_succ]

theorem poprem_loop_length {N : ℕ} (bs : List (Fin N → Fin N → ℤ)) :
    ∀ (n : ℕ) (col : ℤ) (feats : Tensor N) (r c : Fin N),
      ((((bs.enumFrom n).foldl poprem_step (feats, col)).1) r c).length =
        (feats r c).length := by
  induction bs with
  | nil => intro n col feats r c; rfl
  | cons b bs ih =>
    intro n col feats r c
    rw [List.enumFrom_cons, List.foldl_cons]
    rw [show poprem_step (feats, col) (n, b) =
      ((fun r c => if b r c * col > 0 then (feats r c).set n 1 else feats r c),
        col * -1) from rfl]
    rw [ih (n + 1) (col * -1) _ r c]
    by_cases h : b r c * col > 0
    · show (if b r c * col > 0 then (feats r c).set n 1
        else feats r c).length = (feats r c).length
      rw [if_pos h, List.length_set]
    · show (if b r c * col > 0 then (feats r c).set n 1
        else feats r c).length = (feats r c).length
      rw [if_neg h]

theorem poprem_loop_getD {N : ℕ} (bs : List (Fin N → Fin N → ℤ)) :
    ∀ (n : ℕ) (col : ℤ) (feats : Tensor N),
      (∀ r c, (feats r c).length = 16) → n + bs.length ≤ 16 →
      ∀ (r c : Fin N) (j : ℕ),
      ((((bs.enumFrom n).foldl poprem_step (feats, col)).1) r c).getD j 0 =
        if ∃ t, t < bs.length ∧ j = n + t ∧
            (bs.getD t (fun _ _ => 0)) r c * (col * (-1) ^ t) > 0 then 1
        else (feats r c).getD j 0 := by
  induction bs with
  | nil =>
    intro n col feats hlen hb r c j
    rw [if_neg]
    · rfl
    · rintro ⟨t, ht, -, -⟩
      exact absurd ht (by simp)
  | cons b bs ih =>
    intro n col feats hlen hb r c j
    have hn16 : n < 16 := by
      simp only [List.length_cons] at hb
      omega
    have hcol : ∀ t : ℕ, (col * -1) * (-1 : ℤ) ^ t = col * (-1) ^ (t + 1) := by
      intro t
      rw [pow_succ]
      ring
    have hlen' : ∀ r c : Fin N,
        ((fun r c => if b r c * col > 0 then (feats r c).set n 1
          else feats r c) r c : List ℕ).length = 16 := by
      intro r c
      by_cases h : b r c * col > 0
      · show (if b r c * col > 0 then (feats r c).set n 1
          else feats r c).length = 16
        rw [if_pos h, List.length_set]
        exact hlen r c
      · show (if b r c * col > 0 then (feats r c).set n 1
          else feats r c).length = 16
        rw [if_neg h]
        exact hlen r c
    rw [List.enumFrom_cons, List.foldl_cons]
    rw [show poprem_step (feats, col) (n, b) =
      ((fun r c => if b r c * col > 0 then (feats r c).set n 1 else feats r c),
        col * -1) from rfl]
    rw [ih (n + 1) (col * -1) _ hlen'
      (by simp only [List.length_cons] at hb; omega) r c j]
    by_cases htail : ∃ t, t < bs.length ∧ j = n + 1 + t ∧
        (bs.getD t (fun _ _ => 0)) r c * ((col * -1) * (-1) ^ t) > 0
    · rw [if_pos htail]
      obtain ⟨t, ht, hj, hQ⟩ := htail
      rw [if_pos ⟨t + 1, by simp only [List.length_cons]; omega, by omega,
        by rw [List.getD_cons_succ, ← hcol t]; exact hQ⟩]
    · rw [if_neg htail]
      change (if b r c * col > 0 then (feats r c).set n 1
        else feats r c).getD j 0 = _
      by_cases hm : b r c * col > 0
      · rw [if_pos hm]
        by_cases hj : j = n
        · subst hj
          rw [getD_set_self _ _ (by rw [hlen r c]; exact hn16)]
          rw [if_pos ⟨0, by simp, by omega,
            by rw [List.getD_cons_zero, pow_zero, mul_one]; exact hm⟩]
        · rw [getD_set_ne _ _ _ (fun h => hj h.symm)]
          rw [if_neg]
          rintro ⟨t, ht, hjt, hQ⟩
          cases t with
          | zero => exact hj (by omega)
          | succ t =>
            rw [List.getD_cons_succ, ← hcol t] at hQ
            exact htail ⟨t, by simp only [List.length_cons] at ht; omega,
              by omega, hQ⟩
      · rw [if_neg hm, if_neg]
        rintro ⟨t, ht, hjt, hQ⟩
        cases t with
        | zero =>
          rw [List.getD_cons_zero, pow_zero, mul_one] at hQ
          exact hm hQ
        | succ t =>
          rw [List.getD_cons_succ, ← hcol t] at hQ
          exact htail ⟨t, by simp only [List.length_cons] at ht; omega,
            by omega, hQ⟩

/-- C5: for a position with at most 8 stored snapshots, the history encoder
is an N x N x 16 tensor; its planes take the stored snapshots most recent
first, each duplicated once, and plane i marks the cells holding the stone
of the perspective colour to_play * (-1)^i (starting from to_play and
flipping once per plane); planes beyond twice the number of snapshots are
all-zero. -/
theorem player_opponent_recent_eight_move_correct {N : ℕ} (pos : Position N)
    (hplay : pos.to_play = BLACK ∨ pos.to_play = WHITE)
    (hcells : ∀ b ∈ pos.recent_board, ∀ r c : Fin N,
      b r c = -1 ∨ b r c = 0 ∨ b r c = 1)
    (hlen8 : pos.recent_board.length ≤ 8) :
    ∀ (r c : Fin N),
      ((player_opponent_recent_eight_move pos) r c).length = 16 ∧
      ∀ i, i < 16 →
        ((player_opponent_recent_eight_move pos) r c).getD i 0 =
          if i < 2 * pos.recent_board.length ∧
              (pos.recent_board.reverse.getD (i / 2) (fun _ _ => 0)) r c =
                pos.to_play * (-1) ^ i then 1
          else 0 := by
  intro r c
  have hbs_len : ((repeat2 pos.recent_board).reverse).length =
      2 * pos.recent_board.length := by
    rw [List.length_reverse, repeat2_length]
  constructor
  · unfold player_opponent_recent_eight_move
    rw [List.enum_eq_enumFrom, poprem_loop_length]
    exact List.length_replicate _ _
  · intro i hi
    unfold player_opponent_recent_eight_move
    rw [List.enum_eq_enumFrom,
      poprem_loop_getD _ 0 pos.to_play _ (fun _ _ => List.length_replicate _ _)
        (by rw [Nat.zero_add, hbs_len]; omega) r c i]
    have hrep : ((fun _ _ : Fin N => List.replicate 16 0) r c).getD i 0 = 0 := by
      rw [List.getD_eq_getElem _ _ (by simpa using hi), List.getElem_replicate]
    rw [hrep]
    have hbsgd : ∀ t : ℕ, ((repeat2 pos.recent_board).reverse).getD t
        (fun _ _ => 0) = pos.recent_board.reverse.getD (t / 2) (fun _ _ => 0) := by
      intro t
      rw [repeat2_reverse, repeat2_getD]
    have hpm : pos.to_play * (-1 : ℤ) ^ i = 1 ∨ pos.to_play * (-1 : ℤ) ^ i = -1 := by
      have hpow : (-1 : ℤ) ^ i = 1 ∨ (-1 : ℤ) ^ i = -1 := by
        rcases Nat.even_or_odd i with h | h
        · exact Or.inl h.neg_one_pow
        · exact Or.inr h.neg_one_pow
      rcases hplay with h | h <;> rcases hpow with h2 | h2 <;>
        rw [h, h2] <;> simp [BLACK, WHITE]
    have hcell : ∀ j : ℕ,
        pos.recent_board.reverse.getD j (fun _ _ => 0) r c = -1 ∨
        pos.recent_board.reverse.getD j (fun _ _ => 0) r c = 0 ∨
        pos.recent_board.reverse.getD j (fun _ _ => 0) r c = 1 := by
      intro j
      by_cases hj : j < pos.recent_board.reverse.length
      · rw [List.getD_eq_getElem _ _ hj]
        have hmem : pos.recent_board.reverse[j] ∈
            pos.recent_board.reverse := List.getElem_mem hj
        rw [List.mem_reverse] at hmem
        exact hcells _ hmem r c
      · rw [List.getD_eq_getElem?_getD, List.getElem?_eq_none (by omega)]
        right
        left
        rfl
    have hiff : ∀ j : ℕ,
        (pos.recent_board.reverse.getD j (fun _ _ => 0) r c *
          (pos.to_play * (-1) ^ i) > 0 ↔
        pos.recent_board.reverse.getD j (fun _ _ => 0) r c =
          pos.to_play * (-1) ^ i) := by
      intro j
      rcases hcell j with h | h | h <;> rcases hpm with h2 | h2 <;>
        rw [h, h2] <;> norm_num
    by_cases hc2 : i < 2 * pos.recent_board.length ∧
        (pos.recent_board.reverse.getD (i / 2) (fun _ _ => 0)) r c =
          pos.to_play * (-1) ^ i
    · rw [if_pos hc2, if_pos]
      refine ⟨i, by rw [hbs_len]; omega, by omega, ?_⟩
      rw [hbsgd i]
      exact (hiff (i / 2)).2 hc2.2
    · rw [if_neg hc2, if_neg]
      rintro ⟨t, ht, hit, hQ⟩
      have hti : t = i := by omega
      subst hti
      rw [hbsgd t, hiff (t / 2)] at hQ
      rw [hbs_len] at ht
      exact hc2 ⟨ht, hQ⟩

theorem player_opponent_recent_eight_move_correct_witness :
    (wpos5.to_play = BLACK ∨ wpos5.to_play = WHITE) ∧
    (∀ b ∈ wpos5.recent_board, ∀ r c : Fin 1,
      b r c = -1 ∨ b r c = 0 ∨ b r c = 1) ∧
    wpos5.recent_board.length ≤ 8 ∧
    ∀ (r c : Fin 1),
      ((player_opponent_recent_eight_move wpos5) r c).length = 16 ∧
      ∀ i, i < 16 →
        ((player_opponent_recent_eight_move wpos5) r c).getD i 0 =
          if i < 2 * wpos5.recent_board.length ∧
              (wpos5.recent_board.reverse.getD (i / 2) (fun _ _ => 0)) r c =
                wpos5.to_play * (-1) ^ i then 1
          else 0 :=
  ⟨Or.inl rfl, by decide, by decide,
   player_opponent_recent_eight_move_correct wpos5 (Or.inl rfl) (by decide)
     (by decide)⟩

theorem poprem_call_fst {N : ℕ} (l : List (ℕ × (Fin N → Fin N → ℤ))) :
    ∀ (s : Tensor N × ℤ) (buf : List (Fin N → Fin N → ℤ)),
      (l.foldl poprem_call_step (s, buf)).1 = l.foldl poprem_step s := by
  induction l with
  | nil => intro s buf; rfl
  | cons ib l ih =>
    intro s buf
    rw [List.foldl_cons, List.foldl_cons]
    exact ih _ _

/-- C9: evaluating the history feature does not change the position: the
call model, in which np.repeat allocates a private copy of the snapshot
list and the loop's in-place board scaling touches only that buffer,
returns the position unchanged and computes exactly the same features as
the pure definition. -/
theorem player_opponent_recent_eight_move_pure {N : ℕ} (pos : Position N) :
    (player_opponent_recent_eight_move_call pos).2 = pos ∧
    (player_opponent_recent_eight_move_call pos).1 =
      player_opponent_recent_eight_move pos := by
  constructor
  · rfl
  · rw [show (player_opponent_recent_eight_move_call pos).1 =
      (((repeat2 pos.recent_board).reverse.enum).foldl poprem_call_step
        (((fun _ _ => List.replicate 16 0 : Tensor N), pos.to_play), [])).1.1
      from rfl]
    rw [poprem_call_fst]
    rfl

theorem rot90_iter_apply {N : ℕ} : ∀ (m : ℕ) (t : Tensor N) (r c : Fin N),
    rot90_iter m t r c = t (rotCoord_iter m (r, c)).1 (rotCoord_iter m (r, c)).2 := by
  intro m
  induction m with
  | zero => intro t r c; rfl
  | succ m ih =>
    intro t r c
    show rot90_iter m t c r.rev = _
    rw [ih t c r.rev]
    rfl

theorem np_flip_apply {N : ℕ} (a : ℕ) (ha : a < 2) (t : Tensor N) (r c : Fin N) :
    np_flip a t r c = t (flipCoord a (r, c)).1 (flipCoord a (r, c)).2 := by
  interval_cases a
  · rfl
  · rfl

theorem rotCoord_four {N : ℕ} (p : Fin N × Fin N) :
    rotCoord (rotCoord (rotCoord (rotCoord p))) = p := by
  obtain ⟨r, c⟩ := p
  simp [rotCoord, Fin.rev_rev]

theorem rotCoord_comm_iter {N : ℕ} : ∀ (m : ℕ) (p : Fin N × Fin N),
    rotCoord (rotCoord_iter m p) = rotCoord_iter m (rotCoord p) := by
  intro m
  induction m with
  | zero => intro p; rfl
  | succ m ih =>
    intro p
    show rotCoord (rotCoord_iter m (rotCoord p)) =
      rotCoord_iter m (rotCoord (rotCoord p))
    exact ih (rotCoord p)

theorem tau_iter_rho_iter {N : ℕ} : ∀ (m : ℕ) (p : Fin N × Fin N),
    tauCoord_iter m (rotCoord_iter m p) = p := by
  intro m
  induction m with
  | zero => intro p; rfl
  | succ m ih =>
    intro p
    show tauCoord_iter m (tauCoord (rotCoord_iter m (rotCoord p))) = p
    have h1 : tauCoord (rotCoord_iter m (rotCoord p)) = rotCoord_iter m p := by
      show rotCoord (rotCoord (rotCoord (rotCoord_iter m (rotCoord p)))) = _
      rw [rotCoord_comm_iter, rotCoord_comm_iter, rotCoord_comm_iter,
        show rotCoord (rotCoord (rotCoord (rotCoord p))) = p from rotCoord_four p]
    rw [h1]
    exact ih p

theorem flipCoord_invol {N : ℕ} (a : ℕ) (ha : a < 2) (p : Fin N × Fin N) :
    flipCoord a (flipCoord a p) = p := by
  obtain ⟨r, c⟩ := p
  interval_cases a <;> simp [flipCoord, Fin.rev_rev]

theorem flip_rot_coord {N : ℕ} (a : ℕ) (ha : a < 2) (p : Fin N × Fin N) :
    flipCoord a (rotCoord p) = tauCoord (flipCoord a p) := by
  obtain ⟨r, c⟩ := p
  interval_cases a <;> simp [flipCoord, rotCoord, tauCoord, Fin.rev_rev]

theorem flip_rotIter_coord {N : ℕ} (a : ℕ) (ha : a < 2) :
    ∀ (m : ℕ) (p : Fin N × Fin N),
    flipCoord a (rotCoord_iter m p) = tauCoord_iter m (flipCoord a p) := by
  intro m
  induction m with
  | zero => intro p; rfl
  | succ m ih =>
    intro p
    show flipCoord a (rotCoord_iter m (rotCoord p)) =
      tauCoord_iter m (tauCoord (flipCoord a p))
    rw [ih (rotCoord p), flip_rot_coord a ha p]

theorem sigma_invol {N : ℕ} (a : ℕ) (ha : a < 2) (m : ℕ) (p : Fin N × Fin N) :
    flipCoord a (rotCoord_iter m (flipCoord a (rotCoord_iter m p))) = p := by
  rw [flip_rotIter_coord a ha m, flipCoord_invol a ha, tau_iter_rho_iter m p]

theorem dihedral_apply {N : ℕ} (a k : ℕ) (ha : a < 2) (t : Tensor N)
    (r c : Fin N) :
    np_rot90 (np_flip a t) k r c =
      t (flipCoord a (rotCoord_iter (k % 4) (r, c))).1
        (flipCoord a (rotCoord_iter (k % 4) (r, c))).2 := by
  unfold np_rot90
  rw [rot90_iter_apply (k % 4) (np_flip a t) r c]
  exact np_flip_apply a ha t _ _

theorem dihedral_roundtrip {N : ℕ} (a k : ℕ) (ha : a < 2) (t : Tensor N) :
    np_rot90 (np_flip a (np_rot90 (np_flip a t) k)) k = t := by
  funext r c
  rw [dihedral_apply a k ha, dihedral_apply a k ha, Prod.mk.eta,
    sigma_invol a ha]

/-- C7: extract_features with a dihedral pair (a, k), a a spatial axis,
applies the flip along axis a followed by k quarter-turns to the whole
composite tensor; every cell's full channel list is moved by one rigid
coordinate map, and applying the same transform to the transformed tensor
(each of these transforms is its own inverse in the dihedral group) returns
the untransformed extraction exactly. -/
theorem extract_features_dihedral_correct {N : ℕ} (pos : Position N)
    (fs : List (Feature N)) (a k : ℕ) (ha : a < 2) (hfs : fs ≠ []) :
    ∃ t t', extract_features pos fs none = .ok t ∧
      extract_features pos fs (some (a, k)) = .ok t' ∧
      t' = np_rot90 (np_flip a t) k ∧
      (∀ r c, t' r c = t (flipCoord a (rotCoord_iter (k % 4) (r, c))).1
        (flipCoord a (rotCoord_iter (k % 4) (r, c))).2) ∧
      np_rot90 (np_flip a t') k = t := by
  obtain ⟨f0, fs', rfl⟩ : ∃ f0 fs', fs = f0 :: fs' := by
    cases fs with
    | nil => exact absurd rfl hfs
    | cons f0 fs' => exact ⟨f0, fs', rfl⟩
  refine ⟨_, _, rfl, rfl, rfl, ?_, ?_⟩
  · intro r c
    exact dihedral_apply a k ha _ r c
  · exact dihedral_roundtrip a k ha _

theorem extract_features_dihedral_correct_witness :
    (0 : ℕ) < 2 ∧ ([wfeat6] : List (Feature 1)) ≠ [] ∧
    (∃ t t', extract_features (defaultPosition 1) [wfeat6] none = .ok t ∧
      extract_features (defaultPosition 1) [wfeat6] (some (0, 3)) = .ok t' ∧
      t' = np_rot90 (np_flip 0 t) 3 ∧
      (∀ r c, t' r c = t (flipCoord 0 (rotCoord_iter (3 % 4) (r, c))).1
        (flipCoord 0 (rotCoord_iter (3 % 4) (r, c))).2) ∧
      np_rot90 (np_flip 0 t') 3 = t) :=
  ⟨by decide, List.cons_ne_nil _ _,
   extract_features_dihedral_correct (defaultPosition 1) [wfeat6] 0 3
     (by decide) (List.cons_ne_nil _ _)⟩

theorem extract_features_ok_join {N : ℕ} (pos : Position N) (f0 : Feature N)
    (fs' : List (Feature N)) :
    extract_features pos (f0 :: fs') none = .ok (fun r c =>
      (((f0 :: fs').map (fun f => f.apply pos)).map (fun t => t r c)).flatten) :=
  rfl

theorem join_channels_length {N : ℕ} (pos : Position N) (fs : List (Feature N))
    (r c : Fin N) :
    ((((fs.map (fun f => f.apply pos)).map (fun t => t r c)).flatten)).length =
      (fs.map (fun f => ((f.apply pos) r c).length)).sum := by
  rw [List.length_flatten, List.map_map, List.map_map]
  rfl

/-- C2 counterexample: cexBadFeature declares width 2 but returns a single
channel; extract_features does not raise, it returns a one-channel tensor. -/
theorem extract_features_no_shape_check_cex :
    (cexBadFeature.apply (defaultPosition 1) 0 0).length ≠ cexBadFeature.planes ∧
    (extract_features (defaultPosition 1) [cexBadFeature] none).isOk = true ∧
    (((extract_features (defaultPosition 1) [cexBadFeature] none).toOption.getD
      (fun _ _ => [])) 0 0).length = 1 ∧
    cexBadFeature.planes = 2 :=
  ⟨by decide, rfl, rfl, rfl⟩

/-- C2 (amended): extract_features performs no width check: for every
non-empty feature list it succeeds and returns the concatenation, whose
channel count at every cell is the sum of the actual output channel counts,
whether or not these match the declared widths; a mismatch only surfaces
later, in bulk_extract_features' assignment into its preallocated output. -/
theorem extract_features_channel_count {N : ℕ} (pos : Position N)
    (fs : List (Feature N)) (hfs : fs ≠ []) :
    ∃ t, extract_features pos fs none = .ok t ∧
      ∀ r c, (t r c).length =
        (fs.map (fun f => ((f.apply pos) r c).length)).sum := by
  obtain ⟨f0, fs', rfl⟩ : ∃ f0 fs', fs = f0 :: fs' := by
    cases fs with
    | nil => exact absurd rfl hfs
    | cons f0 fs' => exact ⟨f0, fs', rfl⟩
  refine ⟨_, extract_features_ok_join pos f0 fs', ?_⟩
  intro r c
  exact join_channels_length pos (f0 :: fs') r c

theorem extract_features_channel_count_witness :
    (([cexBadFeature] : List (Feature 1)) ≠ []) ∧
    (∃ t, extract_features (defaultPosition 1) [cexBadFeature] none = .ok t ∧
      ∀ r c, (t r c).length =
        (([cexBadFeature] : List (Feature 1)).map
          (fun f => ((f.apply (defaultPosition 1)) r c).length)).sum) :=
  ⟨List.cons_ne_nil _ _,
   extract_features_channel_count (defaultPosition 1) [cexBadFeature]
     (List.cons_ne_nil _ _)⟩

theorem bulk_aux_ok {N : ℕ} (f0 : Feature N) (fs' : List (Feature N)) :
    ∀ (ps : List (Position N)),
      (∀ f ∈ (f0 :: fs'), ∀ pos ∈ ps, ∀ (r c : Fin N),
        ((f.apply pos) r c).length = f.planes) →
      ∃ out, bulk_aux (f0 :: fs') (((f0 :: fs').map (fun f => f.planes)).sum) ps =
          .ok out ∧
        out.length = ps.length ∧
        ∀ i, i < ps.length →
          extract_features (ps.getD i (defaultPosition N)) (f0 :: fs') none =
            .ok (out.getD i (fun _ _ => [])) ∧
          ∀ (r c : Fin N), ((out.getD i (fun _ _ => [])) r c).length =
            ((f0 :: fs').map (fun f => f.planes)).sum := by
  intro ps
  induction ps with
  | nil =>
    intro hw
    exact ⟨[], rfl, rfl, fun i hi => absurd hi (by simp)⟩
  | cons p ps ih =>
    intro hw
    have hlen' : ∀ (r c : Fin N),
        ((fun r c => (((f0 :: fs').map (fun f => f.apply p)).map
          (fun t => t r c)).flatten : Tensor N) r c).length =
        ((f0 :: fs').map (fun f => f.planes)).sum := by
      intro r c
      show ((((f0 :: fs').map (fun f => f.apply p)).map
        (fun t => t r c)).flatten).length = _
      rw [join_channels_length p (f0 :: fs') r c]
      congr 1
      exact List.map_congr_left
        (fun f hf => hw f hf p (List.mem_cons_self _ _) r c)
    have hassign : npAssignTensor (((f0 :: fs').map (fun f => f.planes)).sum)
        (fun r c => (((f0 :: fs').map (fun f => f.apply p)).map
          (fun t => t r c)).flatten) =
        .ok (fun r c => (((f0 :: fs').map (fun f => f.apply p)).map
          (fun t => t r c)).flatten) := by
      unfold npAssignTensor
      rw [if_pos hlen']
    have hcons : bulk_aux (f0 :: fs') (((f0 :: fs').map (fun f => f.planes)).sum)
        (p :: ps) =
        match npAssignTensor (((f0 :: fs').map (fun f => f.planes)).sum)
          (fun r c => (((f0 :: fs').map (fun f => f.apply p)).map
            (fun t => t r c)).flatten) with
        | .error e => .error e
        | .ok t' =>
          match bulk_aux (f0 :: fs')
            (((f0 :: fs').map (fun f => f.planes)).sum) ps with
          | .error e => .error e
          | .ok out => .ok (t' :: out) := rfl
    obtain ⟨out, hout, hlenout, hslice⟩ := ih
      (fun f hf pos hpos => hw f hf pos (List.mem_cons_of_mem _ hpos))
    rw [hcons, hassign, hout]
    refine ⟨_, rfl, by simp [hlenout], ?_⟩
    intro i hi
    cases i with
    | zero =>
      refine ⟨extract_features_ok_join p f0 fs', ?_⟩
      intro r c
      exact hlen' r c
    | succ i =>
      rw [List.getD_cons_succ, List.getD_cons_succ]
      exact hslice i (by simpa using hi)

/-- C6: for a non-empty, width-honest feature list, bulk_extract_features
returns one tensor per position, in order, each equal to
extract_features(position, features) with no dihedral transform, and each
with channel count equal to the sum of the declared widths. -/
theorem bulk_extract_features_correct {N : ℕ} (positions : List (Position N))
    (fs : List (Feature N)) (hfs : fs ≠ [])
    (hw : ∀ f ∈ fs, ∀ pos ∈ positions, ∀ (r c : Fin N),
      ((f.apply pos) r c).length = f.planes) :
    ∃ out, bulk_extract_features positions fs = .ok out ∧
      out.length = positions.length ∧
      ∀ i, i < positions.length →
        extract_features (positions.getD i (defaultPosition N)) fs none =
          .ok (out.getD i (fun _ _ => [])) ∧
        ∀ (r c : Fin N), ((out.getD i (fun _ _ => [])) r c).length =
          (fs.map (fun f => f.planes)).sum := by
  obtain ⟨f0, fs', rfl⟩ : ∃ f0 fs', fs = f0 :: fs' := by
    cases fs with
    | nil => exact absurd rfl hfs
    | cons f0 fs' => exact ⟨f0, fs', rfl⟩
  exact bulk_aux_ok f0 fs' positions hw

theorem bulk_extract_features_correct_witness :
    (([wfeat6] : List (Feature 1)) ≠ []) ∧
    (∀ f ∈ ([wfeat6] : List (Feature 1)), ∀ pos ∈ [defaultPosition 1],
      ∀ (r c : Fin 1), ((f.apply pos) r c).length = f.planes) ∧
    (∃ out, bulk_extract_features [defaultPosition 1] [wfeat6] = .ok out ∧
      out.length = [defaultPosition 1].length ∧
      ∀ i, i < [defaultPosition 1].length →
        extract_features ([defaultPosition 1].getD i (defaultPosition 1))
            [wfeat6] none =
          .ok (out.getD i (fun _ _ => [])) ∧
        ∀ (r c : Fin 1), ((out.getD i (fun _ _ => [])) r c).length =
          (([wfeat6] : List (Feature 1)).map (fun f => f.planes)).sum) := by
  have hwp : ∀ f ∈ ([wfeat6] : List (Feature 1)), ∀ pos ∈ [defaultPosition 1],
      ∀ (r c : Fin 1), ((f.apply pos) r c).length = f.planes := by
    intro f hf pos hpos r c
    rw [List.mem_singleton] at hf
    rw [List.mem_singleton] at hpos
    subst hf
    subst hpos
    rfl
  exact ⟨List.cons_ne_nil _ _, hwp,
    bulk_extract_features_correct [defaultPosition 1] [wfeat6]
      (List.cons_ne_nil _ _) hwp⟩

/-- C8: stone_color_feature is an N x N x 3 binary tensor: channel 0 marks
exactly the stones of the to_play colour, channel 1 exactly the opponent
colour's stones, channel 2 exactly the empty cells; on the same board with
to_play swapped, channels 0 and 1 swap while channel 2 is unchanged. -/
theorem stone_color_feature_correct {N : ℕ} (pos pos' : Position N)
    (hplay : pos.to_play = BLACK ∨ pos.to_play = WHITE)
    (hb : pos'.board = pos.board)
    (ht : pos'.to_play = oppColor pos.to_play) :
    ∀ (r c : Fin N),
      (stone_color_feature pos r c).length = 3 ∧
      (stone_color_feature pos r c).getD 0 0 =
        (if pos.board r c = pos.to_play then 1 else 0) ∧
      (stone_color_feature pos r c).getD 1 0 =
        (if pos.board r c = oppColor pos.to_play then 1 else 0) ∧
      (stone_color_feature pos r c).getD 2 0 =
        (if pos.board r c = EMPTY then 1 else 0) ∧
      (stone_color_feature pos' r c).getD 0 0 =
        (stone_color_feature pos r c).getD 1 0 ∧
      (stone_color_feature pos' r c).getD 1 0 =
        (stone_color_feature pos r c).getD 0 0 ∧
      (stone_color_feature pos' r c).getD 2 0 =
        (stone_color_feature pos r c).getD 2 0 := by
  intro r c
  rcases hplay with h | h
  · have h2 : pos'.to_play = WHITE := by
      rw [ht, h]
      rfl
    have hsc : stone_color_feature pos r c =
        [if pos.board r c = BLACK then 1 else 0,
         if pos.board r c = WHITE then 1 else 0,
         if pos.board r c = EMPTY then 1 else 0] := by
      unfold stone_color_feature
      rw [if_pos h]
    have hsc' : stone_color_feature pos' r c =
        [if pos.board r c = WHITE then 1 else 0,
         if pos.board r c = BLACK then 1 else 0,
         if pos.board r c = EMPTY then 1 else 0] := by
      unfold stone_color_feature
      rw [hb, if_neg (by rw [h2]; decide)]
    rw [hsc, hsc', h, show oppColor BLACK = WHITE from rfl]
    exact ⟨rfl, rfl, rfl, rfl, rfl, rfl, rfl⟩
  · have h2 : pos'.to_play = BLACK := by
      rw [ht, h]
      simp [oppColor, WHITE, BLACK]
    have hsc : stone_color_feature pos r c =
        [if pos.board r c = WHITE then 1 else 0,
         if pos.board r c = BLACK then 1 else 0,
         if pos.board r c = EMPTY then 1 else 0] := by
      unfold stone_color_feature
      rw [if_neg (by rw [h]; decide)]
    have hsc' : stone_color_feature pos' r c =
        [if pos.board r c = BLACK then 1 else 0,
         if pos.board r c = WHITE then 1 else 0,
         if pos.board r c = EMPTY then 1 else 0] := by
      unfold stone_color_feature
      rw [hb, if_pos h2]
    rw [hsc, hsc', h, show oppColor WHITE = BLACK from by
      simp [oppColor, WHITE, BLACK]]
    exact ⟨rfl, rfl, rfl, rfl, rfl, rfl, rfl⟩

theorem stone_color_feature_correct_witness :
    (wpos8.to_play = BLACK ∨ wpos8.to_play = WHITE) ∧
    wpos8'.board = wpos8.board ∧
    wpos8'.to_play = oppColor wpos8.to_play ∧
    ∀ (r c : Fin 1),
      (stone_color_feature wpos8 r c).length = 3 ∧
      (stone_color_feature wpos8 r c).getD 0 0 =
        (if wpos8.board r c = wpos8.to_play then 1 else 0) ∧
      (stone_color_feature wpos8 r c).getD 1 0 =
        (if wpos8.board r c = oppColor wpos8.to_play then 1 else 0) ∧
      (stone_color_feature wpos8 r c).getD 2 0 =
        (if wpos8.board r c = EMPTY then 1 else 0) ∧
      (stone_color_feature wpos8' r c).getD 0 0 =
        (stone_color_feature wpos8 r c).getD 1 0 ∧
      (stone_color_feature wpos8' r c).getD 1 0 =
        (stone_color_feature wpos8 r c).getD 0 0 ∧
      (stone_color_feature wpos8' r c).getD 2 0 =
        (stone_color_feature wpos8 r c).getD 2 0 :=
  ⟨Or.inl rfl, rfl, rfl,
   stone_color_feature_correct wpos8 wpos8' (Or.inl rfl) rfl rfl⟩

end AlphaGoFeatures
